import Mathlib

/-!
Verification of the Privora proof-ledger subsystem against its design
specification.

The development shallowly embeds the relevant TypeScript sources:

* `api/src/crypto/merkle.ts` — `merkleRoot`, `merklePath`, `verifyMerkleProof`
  (namespace `Merkle`).  SHA-256 over the concatenation of two 32-byte nodes
  only ever appears as a binary combiner `c left right`, so the functions are
  stated generically over an arbitrary combiner; concrete instantiations use a
  free term algebra (`HTree`) in which the combiner is injective, the honest
  model of a collision-free hash.
* `api/src/store/proof-store.ts` (the version at that path) — the hash chain
  of `append`/`rotateIfNeeded`, including the deferred `lastHash` write of
  the un-awaited `void ensureHeader(...)` as an explicit event (namespace
  `ChainStore`), the recovery scan `recoverState` (namespace `Recovery`) and
  the level reduction of `currentRoot` (namespace `StoreRoot`).
* `api/src/util/canonical.ts` — JCS / CBOR-lite / SSZ-lite canonical
  serialization over a deep embedding `JVal` of the JavaScript values the
  module branches on (namespace `Canonical`).
* `api/src/store/append-queue.ts` — the queue, idempotency LRU and drain
  iteration (namespace `Queue`).
* `api/src/util/nonceStore.ts` — the in-process bounded-map fallback of
  `checkAndSetNonce` (namespace `Nonce`).
* the second `api/src/store/proof-store.ts` version (write-stream store with a
  byte ceiling) — `openWriter`/`rotateIfNeeded`/`_appendJsonLineAndHash`
  (namespace `SizeStore`).
-/

namespace Merkle

/-- One level of the bottom-up reduction in `merkleRoot`/`merklePath`
(`merkle.ts` lines 17-24 and 40-47): adjacent nodes are combined pairwise
by `c` (the embedding of `sha256Buf(Buffer.concat([L, R]))`), and an
unpaired trailing node is combined with itself (`R = i + 1 < level.length ?
level[i + 1] : L`). -/
def nextLevel (c : α → α → α) : List α → List α
  | [] => []
  | [x] => [c x x]
  | x :: y :: rest => c x y :: nextLevel c rest

theorem nextLevel_length (c : α → α → α) :
    ∀ l : List α, (nextLevel c l).length = (l.length + 1) / 2
  | [] => by simp [nextLevel]
  | [_] => by simp [nextLevel]
  | _ :: _ :: rest => by
      simp [nextLevel, nextLevel_length c rest]
      omega

/-- The `while (level.length > 1)` loop of `merkleRoot`: reduce levels until a
single node remains, then return `level[0]`. -/
def rootLevels (c : α → α → α) (z : α) (level : List α) : α :=
  if 1 < level.length then rootLevels c z (nextLevel c level) else level.headD z
termination_by level.length
decreasing_by
  simp [nextLevel_length]
  omega

/-- `merkleRoot` from `merkle.ts`: the all-zero sentinel `z` (the embedding of
`Buffer.alloc(32)`) on the empty list, otherwise the level reduction. -/
def merkleRoot (c : α → α → α) (z : α) (leaves : List α) : α :=
  if leaves.isEmpty then z else rootLevels c z leaves

/-- Which side a recorded sibling sits on (`"L" | "R"` in `MerkleBranch`). -/
inductive Side where
  | L
  | R
deriving DecidableEq, Repr

/-- One `MerkleBranch` entry `{hash, side}`. -/
structure PathStep (α : Type) where
  side : Side
  hash : α
deriving DecidableEq, Repr

/-- The loop of `merklePath` (`merkle.ts` lines 33-49): at each level record
the sibling of the current index (the node itself when the pair index falls
off the end), tag the side the sibling sits on, then descend into the next
level at the halved index. -/
def merklePath (c : α → α → α) (z : α) (level : List α) (idx : Nat) :
    List (PathStep α) :=
  if 1 < level.length then
    let isRight := idx % 2 = 1
    let pairIdx := if isRight then idx - 1 else idx + 1
    let sibling :=
      if pairIdx < level.length then level.getD pairIdx z else level.getD idx z
    { side := if isRight then Side.L else Side.R, hash := sibling } ::
      merklePath c z (nextLevel c level) (idx / 2)
  else []
termination_by level.length
decreasing_by
  simp [nextLevel_length]
  omega

/-- The fold inside `verifyMerkleProof`: recombine the accumulator with each
recorded sibling on its recorded side. -/
def foldBranch (c : α → α → α) (leaf : α) (branch : List (PathStep α)) : α :=
  branch.foldl
    (fun acc st =>
      match st.side with
      | Side.L => c st.hash acc
      | Side.R => c acc st.hash)
    leaf

/-- `verifyMerkleProof` from `merkle.ts`: fold the branch from the leaf and
compare the result with the expected root. -/
def verifyMerkleProof [DecidableEq α] (c : α → α → α) (leaf : α)
    (branch : List (PathStep α)) (expectedRoot : α) : Bool :=
  decide (foldBranch c leaf branch = expectedRoot)

theorem nextLevel_getD (c : α → α → α) (z : α) :
    ∀ (level : List α) (idx : Nat), idx < level.length →
      (nextLevel c level).getD (idx / 2) z =
        if idx % 2 = 1 then c (level.getD (idx - 1) z) (level.getD idx z)
        else if idx + 1 < level.length then
          c (level.getD idx z) (level.getD (idx + 1) z)
        else c (level.getD idx z) (level.getD idx z)
  | [], idx, h => absurd h (by simp)
  | [x], 0, _ => by simp [nextLevel]
  | [x], k + 1, h => by simp at h
  | x :: y :: rest, 0, _ => by simp [nextLevel]
  | x :: y :: rest, 1, _ => by simp [nextLevel]
  | x :: y :: rest, k + 2, h => by
      have hk : k < rest.length := by
        simpa using Nat.lt_of_add_lt_add_right h
      have ih := nextLevel_getD c z rest k hk
      have hdiv : (k + 2) / 2 = k / 2 + 1 := by omega
      have hmod : (k + 2) % 2 = k % 2 := by omega
      rw [hdiv, hmod]
      rcases Nat.even_or_odd k with he | ho
      · have hk2 : k % 2 ≠ 1 := by
          rcases he with ⟨m, hm⟩
          omega
        simp [nextLevel, if_neg hk2] at ih ⊢
        by_cases hlt : k + 1 < rest.length
        · simp [if_pos hlt] at ih
          rw [if_pos (show k + 2 < rest.length + 1 by omega)]
          exact ih
        · simp [if_neg hlt] at ih
          rw [if_neg (show ¬ k + 2 < rest.length + 1 by omega)]
          exact ih
      · have hk2 : k % 2 = 1 := by
          rcases ho with ⟨m, hm⟩
          omega
        have hsub : k + 2 - 1 = (k - 1) + 2 := by omega
        simp only [nextLevel, List.getD_cons_succ, if_pos hk2, hsub] at ih ⊢
        exact ih

theorem foldBranch_cons (c : α → α → α) (leaf : α) (st : PathStep α)
    (rest : List (PathStep α)) :
    foldBranch c leaf (st :: rest) =
      foldBranch c
        (match st.side with
         | Side.L => c st.hash leaf
         | Side.R => c leaf st.hash)
        rest := rfl

theorem path_fold_eq_root (c : α → α → α) (z : α) :
    ∀ (n : Nat) (level : List α), level.length ≤ n → ∀ idx, idx < level.length →
      foldBranch c (level.getD idx z) (merklePath c z level idx) =
        rootLevels c z level := by
  intro n
  induction n with
  | zero =>
      intro level hlen idx hidx
      omega
  | succ m ih =>
      intro level hlen idx hidx
      by_cases hbig : 1 < level.length
      · rw [merklePath]
        rw [if_pos hbig]
        rw [rootLevels, if_pos hbig]
        rw [foldBranch_cons]
        have hnl : (nextLevel c level).length = (level.length + 1) / 2 :=
          nextLevel_length c level
        have hlen' : (nextLevel c level).length ≤ m := by omega
        have hidx' : idx / 2 < (nextLevel c level).length := by
          rw [hnl]
          omega
        have hstep := ih (nextLevel c level) hlen' (idx / 2) hidx'
        have hcomb := nextLevel_getD c z level idx hidx
        rcases Nat.even_or_odd idx with he | ho
        · have hk2 : ¬ idx % 2 = 1 := by
            rcases he with ⟨m', hm'⟩
            omega
          by_cases hlt : idx + 1 < level.length
          · rw [if_neg hk2, if_pos hlt] at hcomb
            rw [hcomb] at hstep
            simp only [if_neg hk2, if_pos hlt]
            exact hstep
          · rw [if_neg hk2, if_neg hlt] at hcomb
            rw [hcomb] at hstep
            simp only [if_neg hk2, if_neg hlt]
            exact hstep
        · have hk2 : idx % 2 = 1 := by
            rcases ho with ⟨m', hm'⟩
            omega
          have hpair : idx - 1 < level.length := by omega
          rw [if_pos hk2] at hcomb
          rw [hcomb] at hstep
          simp only [if_pos hk2, if_pos hpair]
          exact hstep
      · have hone : level.length = 1 := by omega
        have hidx0 : idx = 0 := by omega
        rw [merklePath, if_neg hbig, rootLevels, if_neg hbig]
        rcases level with _ | ⟨x, rest⟩
        · simp at hone
        · have : rest = [] := by
            simpa using hone
          subst this
          subst hidx0
          simp [foldBranch]

end Merkle

/-- Free term algebra over which the repository's hash shapes are interpreted:
`base n` stands for a concrete input byte string, `sha1 t` models the unary
`sha256` applied to one serialized value (the per-leaf hash `h` inside
`currentRoot`), and `sha2 a b` models `sha256` applied to the concatenation of
two nodes.  Constructor injectivity is the honest model of a collision-free
hash: two hash expressions are equal exactly when they were built the same
way. -/
inductive HTree where
  | base : Nat → HTree
  | sha1 : HTree → HTree
  | sha2 : HTree → HTree → HTree
deriving DecidableEq, Repr

namespace StoreRoot

/-- One level of the reduction inside `ProofStore.currentRoot`
(`api/src/store/proof-store.ts` lines 115-121): adjacent nodes are hashed
pairwise, but an unpaired trailing node is pushed to the next level unchanged
(`else next.push(nodes[i])`). -/
def levelUp (c : α → α → α) : List α → List α
  | [] => []
  | [x] => [x]
  | x :: y :: rest => c x y :: levelUp c rest

theorem levelUp_length (c : α → α → α) :
    ∀ l : List α, (levelUp c l).length = (l.length + 1) / 2
  | [] => by simp [levelUp]
  | [_] => by simp [levelUp]
  | _ :: _ :: rest => by
      simp [levelUp, levelUp_length c rest]
      omega

/-- The `while (nodes.length > 1)` loop of `currentRoot`. -/
def reduceNodes (c : α → α → α) (z : α) (nodes : List α) : α :=
  if 1 < nodes.length then reduceNodes c z (levelUp c nodes) else nodes.headD z
termination_by nodes.length
decreasing_by
  simp [levelUp_length]
  omega

/-- `ProofStore.currentRoot` restricted to its Merkle computation: hash each
leaf (`nodes = this.leafs.map(h)`), return `null` for the empty list, else
reduce levels; `hl` embeds the unary leaf hash and `c` the binary
concatenation hash. -/
def currentRootMerkle (hl : α → α) (c : α → α → α) (z : α)
    (leafs : List α) : Option α :=
  let nodes := leafs.map hl
  if nodes.isEmpty then none else some (reduceNodes c z nodes)

end StoreRoot

/-- C1: the claim says every unpaired trailing node is hashed with itself in
the Merkle root computation, citing both `merkleRoot` (`crypto/merkle.ts`) and
`ProofStore.currentRoot` (`store/proof-store.ts`).  `merkleRoot` does
self-pair — on three leaves it yields `H(H(l0 ∥ l1) ∥ H(l2 ∥ l2))` — but
`currentRoot` promotes the unpaired node unchanged, yielding
`H(H(H(a) ∥ H(b)) ∥ H(c))` instead of the specified
`H(H(H(a) ∥ H(b)) ∥ H(H(c) ∥ H(c)))` on the three-leaf partition; the two
roots differ in the free hash algebra, i.e. for any collision-free hash. -/
theorem claim_c1_currentRoot_promotes_unpaired :
    Merkle.merkleRoot HTree.sha2 (HTree.base 99)
        [HTree.base 0, HTree.base 1, HTree.base 2] =
      HTree.sha2 (HTree.sha2 (HTree.base 0) (HTree.base 1))
        (HTree.sha2 (HTree.base 2) (HTree.base 2)) ∧
    StoreRoot.currentRootMerkle HTree.sha1 HTree.sha2 (HTree.base 99)
        [HTree.base 0, HTree.base 1, HTree.base 2] =
      some (HTree.sha2
        (HTree.sha2 (HTree.sha1 (HTree.base 0)) (HTree.sha1 (HTree.base 1)))
        (HTree.sha1 (HTree.base 2))) ∧
    StoreRoot.currentRootMerkle HTree.sha1 HTree.sha2 (HTree.base 99)
        [HTree.base 0, HTree.base 1, HTree.base 2] ≠
      some (HTree.sha2
        (HTree.sha2 (HTree.sha1 (HTree.base 0)) (HTree.sha1 (HTree.base 1)))
        (HTree.sha2 (HTree.sha1 (HTree.base 2)) (HTree.sha1 (HTree.base 2)))) := by
  refine ⟨?_, ?_, ?_⟩
  · rw [Merkle.merkleRoot]
    rw [Merkle.rootLevels]
    rw [Merkle.rootLevels]
    rw [Merkle.rootLevels]
    simp [Merkle.nextLevel]
  · rw [StoreRoot.currentRootMerkle]
    rw [StoreRoot.reduceNodes]
    rw [StoreRoot.reduceNodes]
    rw [StoreRoot.reduceNodes]
    simp [StoreRoot.levelUp]
  · rw [StoreRoot.currentRootMerkle]
    rw [StoreRoot.reduceNodes]
    rw [StoreRoot.reduceNodes]
    rw [StoreRoot.reduceNodes]
    simp [StoreRoot.levelUp]

/-- C2: for every non-empty leaf list and every in-range index, folding the
branch returned by `merklePath` from the indexed leaf yields `merkleRoot`, so
`verifyMerkleProof` accepts; stated over an arbitrary combiner `c` embedding
`sha256Buf(Buffer.concat([L, R]))` and default `z` embedding the 32-byte zero
buffer. -/
theorem claim_c2_verify_path_root {α : Type} [DecidableEq α] (c : α → α → α)
    (z : α) (leaves : List α) (i : Nat) (hne : leaves ≠ [])
    (hi : i < leaves.length) :
    Merkle.verifyMerkleProof c (leaves.getD i z)
      (Merkle.merklePath c z leaves i) (Merkle.merkleRoot c z leaves) = true := by
  have h := Merkle.path_fold_eq_root c z leaves.length leaves le_rfl i hi
  have hne' : ¬ leaves.isEmpty = true := by
    simpa [List.isEmpty_iff] using hne
  simp [Merkle.verifyMerkleProof, Merkle.merkleRoot, hne']
  simpa using h

/-- Witness for C2 at the concrete three-leaf list `[5, 7, 11]`, index `2`,
with combiner `fun a b => a + 2 * b + 1` on `Nat`. -/
theorem claim_c2_verify_path_root_witness :
    Merkle.verifyMerkleProof (fun a b => a + 2 * b + 1)
      (List.getD [5, 7, 11] 2 0)
      (Merkle.merklePath (fun a b => a + 2 * b + 1) 0 [5, 7, 11] 2)
      (Merkle.merkleRoot (fun a b => a + 2 * b + 1) 0 [5, 7, 11]) = true :=
  claim_c2_verify_path_root (fun a b => a + 2 * b + 1) 0 [5, 7, 11] 2
    (by decide) (by decide)

/-- C10: the root of a one-leaf list is the leaf itself (the level loop never
runs), the inclusion path of that leaf is the empty branch, and verification
with an empty branch is exactly the equality test of leaf and expected
root. -/
theorem claim_c10_singleton {α : Type} [DecidableEq α] (c : α → α → α)
    (z x r : α) :
    Merkle.merkleRoot c z [x] = x ∧ Merkle.merklePath c z [x] 0 = [] ∧
      Merkle.verifyMerkleProof c x [] r = decide (x = r) := by
  refine ⟨?_, ?_, rfl⟩
  · rw [Merkle.merkleRoot]
    rw [Merkle.rootLevels]
    simp
  · rw [Merkle.merklePath]
    simp

namespace ChainStore

/-- One chained ledger line as written by `ProofStore.append`
(`api/src/store/proof-store.ts` lines 95-108): the serialized business fields
`rawBase` (the embedding of `JSON.stringify({jobId, proofHash, manifestHash,
createdAt})`), the chain pointer captured as `prevHash`, and the line's own
`lineHash`. -/
structure ChainedRec where
  rawBase : String
  prevHash : Option String
  lineHash : String
deriving DecidableEq, Repr

/-- The mutable fields of `ProofStore` that the chain logic touches — the
current partition day, the chain pointer `lastHash`, the in-memory leaf list
`leafs` — plus the deferred effect of the un-awaited `void
ensureHeader(...)` call: `pendingHeader` holds the header hash that the
suspended continuation will install into `lastHash` when the event loop
runs it (its `fs.promises.stat` was issued before any record write, so it
observes the empty file, appends the header and assigns
`this.lastHash = sha(JSON.stringify(hdr))`). -/
structure PSState where
  day : Nat
  lastHash : Option String
  leafs : List String
  pendingHeader : Option String
deriving DecidableEq, Repr

/-- `ProofStore.rotateIfNeeded` (lines 83-93): when the current date differs
from the open partition's day, switch to the new day and reset `lastHash` to
`null` and `leafs` to `[]`.  Of the two un-awaited promises it then makes,
`void recoverState(...)` runs its synchronous prefix at once and returns
(the rotated file does not exist yet, so `existsSync` fails), while `void
ensureHeader(...)` suspends at its first `await`; its continuation is
recorded as `pendingHeader` — carrying `hdr today`, the hash of the new
partition's serialized header — and is applied by `headerLands` whenever
the event loop later schedules it (or never, if its `stat` loses the race
and sees a non-empty file). -/
def rotateIfNeeded (hdr : Nat → String) (today : Nat) (s : PSState) :
    PSState :=
  if today ≠ s.day then
    { day := today, lastHash := none, leafs := [],
      pendingHeader := some (hdr today) }
  else s

/-- The deferred `ensureHeader` continuation landing: it sets `lastHash` to
the header hash, whatever the pointer held at that moment. -/
def headerLands (s : PSState) : PSState :=
  match s.pendingHeader with
  | none => s
  | some h => { s with lastHash := some h, pendingHeader := none }

/-- `ProofStore.append` (lines 95-108): rotate if needed, hash
`(lastHash || "") + rawBase` (`H` embeds the hex `sha256`), emit the chained
record `{...rawBase, prevHash: lastHash, lineHash}`, then advance `lastHash`
and push the leaf. -/
def append (H : String → String) (hdr : Nat → String) (today : Nat)
    (rawBase proofHash : String) (s : PSState) : PSState × ChainedRec :=
  let s1 := rotateIfNeeded hdr today s
  let lineHash := H (s1.lastHash.getD "" ++ rawBase)
  ({ s1 with lastHash := some lineHash, leafs := s1.leafs ++ [proofHash] },
   { rawBase := rawBase, prevHash := s1.lastHash, lineHash := lineHash })

/-- One event-loop step the chain logic can observe: an `append` call (with
the UTC day seen at the call, the record's serialized business fields and
its leaf hash), or the deferred `ensureHeader` continuation of the last
rotation landing between calls. -/
inductive Ev where
  | app : Nat → String → String → Ev
  | hdrLands : Ev
deriving DecidableEq, Repr

/-- Run a schedule of events; the result pairs each emitted chained record
with the day it was written under. -/
def run (H : String → String) (hdr : Nat → String) (s : PSState) :
    List Ev → PSState × List (Nat × ChainedRec)
  | [] => (s, [])
  | Ev.app d raw ph :: rest =>
      let step := append H hdr d raw ph s
      let tail := run H hdr step.1 rest
      (tail.1, (d, step.2) :: tail.2)
  | Ev.hdrLands :: rest => run H hdr (headerLands s) rest

/-- The chain invariant over an emitted record list, threaded with the chain
pointer and day in force before the first record: every record's `lineHash`
re-hashes its own `prevHash` and `rawBase`, every record's `prevHash` is the
previous record's `lineHash` when the day is unchanged and `null` when the
day rotated, and the pointer advances to the record's `lineHash`. -/
def chainOk (H : String → String) :
    Option String → Nat → List (Nat × ChainedRec) → Bool
  | _, _, [] => true
  | prev, prevDay, (d, r) :: rest =>
      (decide (r.lineHash = H (r.prevHash.getD "" ++ r.rawBase)) &&
       decide (r.prevHash = if d = prevDay then prev else none)) &&
      chainOk H (some r.lineHash) d rest

end ChainStore

/-- C3: the claim asserts the chain invariant — `lineHash = H(prevHash ∥
rawLine)`, `prevHash` equal to the preceding same-partition record's
`lineHash` (`null` for the first record after rotation) — for every record.
Each record does satisfy its own hash equation, and the first record of a
rotated partition does carry `prevHash = null` (the rotation resets the
pointer synchronously and the un-awaited header write has not run yet).
But the linking of consecutive records is only schedule-dependent: rotation
fires an un-awaited `void ensureHeader(...)` whose continuation — its
`stat` was issued before the first record write and sees the empty file —
later assigns `lastHash = sha(header)`, clobbering the pointer.  Traced
below on day rotation, one append, the deferred header landing, then a
second append: the second record gets `prevHash = "hdr-2"` (the header
hash) instead of the first record's `lineHash` `"sha-r1"`, so the claim's
invariant `chainOk` evaluates to `false`; the same trace without the
landing satisfies it, exhibiting the race. -/
theorem claim_c3_deferred_header_breaks_chain :
    (ChainStore.run (fun s => "sha-" ++ s) (fun d => "hdr-" ++ toString d)
        { day := 1, lastHash := some "t1", leafs := ["x"],
          pendingHeader := none }
        [ChainStore.Ev.app 2 "r1" "p1", ChainStore.Ev.hdrLands,
         ChainStore.Ev.app 2 "r2" "p2"]).2 =
      [(2, { rawBase := "r1", prevHash := none, lineHash := "sha-r1" }),
       (2, { rawBase := "r2", prevHash := some "hdr-2",
             lineHash := "sha-hdr-2r2" })] ∧
    ChainStore.chainOk (fun s => "sha-" ++ s) (some "t1") 1
      ((ChainStore.run (fun s => "sha-" ++ s) (fun d => "hdr-" ++ toString d)
          { day := 1, lastHash := some "t1", leafs := ["x"],
            pendingHeader := none }
          [ChainStore.Ev.app 2 "r1" "p1", ChainStore.Ev.hdrLands,
           ChainStore.Ev.app 2 "r2" "p2"]).2) = false ∧
    ChainStore.chainOk (fun s => "sha-" ++ s) (some "t1") 1
      ((ChainStore.run (fun s => "sha-" ++ s) (fun d => "hdr-" ++ toString d)
          { day := 1, lastHash := some "t1", leafs := ["x"],
            pendingHeader := none }
          [ChainStore.Ev.app 2 "r1" "p1",
           ChainStore.Ev.app 2 "r2" "p2"]).2) = true := by
  refine ⟨by decide, by decide, by decide⟩

namespace Recovery

/-- The projection of one parsed NDJSON line that `recoverState` reads: the
`t === "header"` test, the re-serialization `JSON.stringify(obj)` used to
hash the header, and the optional `proofHash` / `lineHash` fields of a
record. -/
structure ParsedLine where
  isHeader : Bool
  restring : String
  proofHash : Option String
  lineHash : Option String
deriving DecidableEq, Repr

/-- Outcome of the recovery scan: the chain pointer and leaf list it left in
the store, plus whether the scan ended by raising out of the loop instead of
reaching the end of the file. -/
structure ScanResult where
  lastHash : Option String
  leafs : List String
  aborted : Bool
deriving DecidableEq, Repr

/-- JavaScript `String.prototype.trim`: drop whitespace from both ends,
embedded directly over the character list so that it computes. -/
def trimStr (s : String) : String :=
  ⟨((s.data.dropWhile Char.isWhitespace).reverse.dropWhile
      Char.isWhitespace).reverse⟩

/-- `ProofStore.recoverState` (`api/src/store/proof-store.ts` lines 64-81):
trim each line, skip blank lines, `JSON.parse` the line — there is no
`try`/`catch` here, so a line that fails to parse raises out of the
`for await` loop and ends the scan with the state accumulated so far
(`aborted := true`); a header line resets the pointer to the hash of its
re-serialization; a record line pushes `proofHash` onto the leaf list when
present and advances the pointer to `lineHash`, falling back to
`H((lastHash || "") + line)` when the record carries no `lineHash`.  `parse`
embeds `JSON.parse` (`none` = throw), `H` the hex `sha256`. -/
def recoverScan (parse : String → Option ParsedLine) (H : String → String) :
    Option String → List String → List String → ScanResult
  | lastHash, leafs, [] => { lastHash := lastHash, leafs := leafs, aborted := false }
  | lastHash, leafs, raw :: rest =>
      let line := trimStr raw
      if line = "" then recoverScan parse H lastHash leafs rest
      else
        match parse line with
        | none => { lastHash := lastHash, leafs := leafs, aborted := true }
        | some obj =>
            if obj.isHeader then
              recoverScan parse H (some (H obj.restring)) leafs rest
            else
              recoverScan parse H
                (match obj.lineHash with
                 | some lh => some lh
                 | none => some (H (lastHash.getD "" ++ line)))
                (match obj.proofHash with
                 | some p => leafs ++ [p]
                 | none => leafs)
                rest

/-- Concrete parse oracle for the crash scenario: a header line and one fully
written record parse; the trailing fragment left by the simulated crash (in
the repository, a truncated JSON prefix such as `"` + `jobId...` cut
mid-object) fails to parse, which is where `JSON.parse` throws. -/
def parseC4 : String → Option ParsedLine := fun s =>
  if s = "headerline" then
    some { isHeader := true, restring := "headerline",
           proofHash := none, lineHash := none }
  else if s = "recordline1" then
    some { isHeader := false, restring := "recordline1",
           proofHash := some "p1", lineHash := some "lh1" }
  else none

end Recovery

/-- C4: the claim says the recovery scan skips an unparseable trailing line
without aborting.  Traced on a partition holding a header, one fully written
record and a truncated trailing fragment, the scan does reconstruct
`leafCount = 1` and leaves the chain pointer at the last valid `lineHash`
(`lh1`), but it reaches that state by raising out of the loop at the
malformed line — `recoverState` has no `try`/`catch` around `JSON.parse`, so
the fragment is not skipped, the scan aborts there (`aborted = true`), and
the un-awaited `void recoverState(...)` promise rejects. -/
theorem claim_c4_recovery_aborts_on_malformed_tail :
    Recovery.recoverScan Recovery.parseC4 (fun s => "sha-" ++ s) none []
        ["headerline", "recordline1", "rawfragment"] =
      { lastHash := some "lh1", leafs := ["p1"], aborted := true } := by
  decide

namespace Canonical

/-- Deep embedding of the JavaScript values `api/src/util/canonical.ts`
branches on: `null`, booleans, finite integer-valued numbers (the module's
number branches for non-integer or non-finite numbers are not reachable from
this fragment), strings, bigints, arrays, and plain objects whose fields are
kept in insertion order, as JavaScript objects keep them. -/
inductive JVal where
  | vnull : JVal
  | vbool : Bool → JVal
  | vnum : Int → JVal
  | vstr : String → JVal
  | vbig : Int → JVal
  | varr : List JVal → JVal
  | vobj : List (String × JVal) → JVal

/-- Insert one field into a key-sorted field list, keeping it sorted by key;
`insertField` and `sortFields` together embed `Object.keys(v).sort()`
followed by rebuilding the object in sorted key order, as all three
serializers do. -/
def insertField (p : String × JVal) : List (String × JVal) →
    List (String × JVal)
  | [] => [p]
  | q :: rest => if p.1 ≤ q.1 then p :: q :: rest else q :: insertField p rest

/-- Sort a field list by key (stable insertion sort). -/
def sortFields (l : List (String × JVal)) : List (String × JVal) :=
  l.foldr insertField []

mutual

/-- Recursively sort every object's fields by key, at every nesting level.
Two `JVal`s are "logically equal and differ only in the insertion order of
object keys" exactly when their `sortVal` normal forms coincide. -/
def sortVal : JVal → JVal
  | .vnull => .vnull
  | .vbool b => .vbool b
  | .vnum n => .vnum n
  | .vstr s => .vstr s
  | .vbig n => .vbig n
  | .varr xs => .varr (sortArr xs)
  | .vobj fs => .vobj (sortFields (sortFieldsVals fs))

def sortArr : List JVal → List JVal
  | [] => []
  | v :: vs => sortVal v :: sortArr vs

def sortFieldsVals : List (String × JVal) → List (String × JVal)
  | [] => []
  | (k, v) :: fs => (k, sortVal v) :: sortFieldsVals fs

end

/-- One hexadecimal digit, lower case, as `toString(16)` produces. -/
def hexDigit (n : Nat) : Char :=
  if n < 10 then Char.ofNat (48 + n) else Char.ofNat (87 + n)

/-- Four-digit hexadecimal rendering used by `JSON.stringify` for control
characters. -/
def hex4 (n : Nat) : String :=
  ⟨[hexDigit (n / 4096 % 16), hexDigit (n / 256 % 16),
    hexDigit (n / 16 % 16), hexDigit (n % 16)]⟩

/-- Per-character escaping of `JSON.stringify` for string values. -/
def escapeChar (ch : Char) : String :=
  if ch = '"' then "\\\""
  else if ch = '\\' then "\\\\"
  else if ch = Char.ofNat 8 then "\\b"
  else if ch = Char.ofNat 9 then "\\t"
  else if ch = Char.ofNat 10 then "\\n"
  else if ch = Char.ofNat 12 then "\\f"
  else if ch = Char.ofNat 13 then "\\r"
  else if ch.toNat < 32 then "\\u" ++ hex4 ch.toNat
  else String.singleton ch

/-- A JSON string literal: quotes around the escaped characters. -/
def quoteStr (s : String) : String :=
  "\"" ++ String.join (s.data.map escapeChar) ++ "\""

/-- Comma-join, as `Array.prototype.join(",")`. -/
def joinComma (parts : List String) : String :=
  String.intercalate "," parts

theorem insertField_sizeOf (p : String × JVal) :
    ∀ l : List (String × JVal), sizeOf (insertField p l) = sizeOf (p :: l)
  | [] => rfl
  | q :: rest => by
      rw [insertField]
      by_cases h : p.1 ≤ q.1
      · rw [if_pos h]
      · rw [if_neg h]
        have ih := insertField_sizeOf p rest
        simp at ih ⊢
        omega

theorem sortFields_sizeOf : ∀ l, sizeOf (sortFields l) = sizeOf l
  | [] => rfl
  | p :: rest => by
      have h1 : sortFields (p :: rest) = insertField p (sortFields rest) := rfl
      have ih := sortFields_sizeOf rest
      rw [h1, insertField_sizeOf]
      simp at ih ⊢
      omega

mutual

/-- `jcsStringify`: `JSON.stringify` with the key-sorting replacer.  Objects
serialize their fields in sorted key order at every level; a bigint anywhere
makes `JSON.stringify` throw a `TypeError`, embedded as `none`. -/
def jcsVal : JVal → Option String
  | .vnull => some "null"
  | .vbool b => some (if b then "true" else "false")
  | .vnum n => some (toString n)
  | .vstr s => some (quoteStr s)
  | .vbig _ => none
  | .varr xs =>
      match jcsArr xs with
      | none => none
      | some parts => some ("[" ++ joinComma parts ++ "]")
  | .vobj fs =>
      match jcsFields (sortFields fs) with
      | none => none
      | some parts => some ("\x7b" ++ joinComma parts ++ "\x7d")
termination_by v => sizeOf v
decreasing_by
  all_goals simp [sortFields_sizeOf]

def jcsArr : List JVal → Option (List String)
  | [] => some []
  | v :: vs =>
      match jcsVal v with
      | none => none
      | some s =>
          match jcsArr vs with
          | none => none
          | some rest => some (s :: rest)
termination_by l => sizeOf l
decreasing_by
  all_goals simp
  all_goals omega

def jcsFields : List (String × JVal) → Option (List String)
  | [] => some []
  | (k, v) :: fs =>
      match jcsVal v with
      | none => none
      | some s =>
          match jcsFields fs with
          | none => none
          | some rest => some ((quoteStr k ++ ":" ++ s) :: rest)
termination_by l => sizeOf l
decreasing_by
  all_goals simp
  all_goals omega

end

mutual

/-- Order-preserving variant of `jcsVal` (no sorting anywhere); `jcsVal`
factors through it via `sortVal`. -/
def jcsPlainVal : JVal → Option String
  | .vnull => some "null"
  | .vbool b => some (if b then "true" else "false")
  | .vnum n => some (toString n)
  | .vstr s => some (quoteStr s)
  | .vbig _ => none
  | .varr xs =>
      match jcsPlainArr xs with
      | none => none
      | some parts => some ("[" ++ joinComma parts ++ "]")
  | .vobj fs =>
      match jcsPlainFields fs with
      | none => none
      | some parts => some ("\x7b" ++ joinComma parts ++ "\x7d")

def jcsPlainArr : List JVal → Option (List String)
  | [] => some []
  | v :: vs =>
      match jcsPlainVal v with
      | none => none
      | some s =>
          match jcsPlainArr vs with
          | none => none
          | some rest => some (s :: rest)

def jcsPlainFields : List (String × JVal) → Option (List String)
  | [] => some []
  | (k, v) :: fs =>
      match jcsPlainVal v with
      | none => none
      | some s =>
          match jcsPlainFields fs with
          | none => none
          | some rest => some ((quoteStr k ++ ":" ++ s) :: rest)

end

/-- UTF-8 encoding of one character (code point to byte list). -/
def utf8EncodeChar (ch : Char) : List Nat :=
  let n := ch.toNat
  if n < 128 then [n]
  else if n < 2048 then [192 + n / 64, 128 + n % 64]
  else if n < 65536 then [224 + n / 4096, 128 + n / 64 % 64, 128 + n % 64]
  else [240 + n / 262144, 128 + n / 4096 % 64, 128 + n / 64 % 64, 128 + n % 64]

/-- UTF-8 bytes of a string, the embedding of `new TextEncoder().encode`. -/
def utf8Bytes (s : String) : List Nat :=
  (s.data.map utf8EncodeChar).flatten

/-- `cborUInt` from `canonical.ts`: minimal-length header encoding of an
unsigned integer under the given major type (`majorType << 5` is
`majorType * 32`; `(val >> k) & 0xff` is `val / 2 ^ k % 256`). -/
def cborUInt (majorType : Nat) (val : Nat) : List Nat :=
  if val < 24 then [majorType * 32 + val]
  else if val < 256 then [majorType * 32 + 24, val]
  else if val < 65536 then [majorType * 32 + 25, val / 256 % 256, val % 256]
  else if val < 4294967296 then
    [majorType * 32 + 26, val / 16777216 % 256, val / 65536 % 256,
     val / 256 % 256, val % 256]
  else
    [majorType * 32 + 27, val / 72057594037927936 % 256,
     val / 281474976710656 % 256, val / 1099511627776 % 256,
     val / 4294967296 % 256, val / 16777216 % 256, val / 65536 % 256,
     val / 256 % 256, val % 256]

/-- `cborText`: text header (major type 3) over the UTF-8 byte length,
followed by the bytes. -/
def cborText (s : String) : List Nat :=
  cborUInt 3 (utf8Bytes s).length ++ utf8Bytes s

mutual

/-- `cborAny` from `canonical.ts`: `null` is `0xf6`, booleans `0xf5`/`0xf4`,
a negative integer falls into the `String(v)` text fallback, a non-negative
integer is a major-type-0 unsigned integer, strings are text, arrays are
length-prefixed element sequences, objects are maps over the key-sorted
fields, and a bigint reaches the `default` branch of the `typeof` switch and
is encoded as `null` (`0xf6`). -/
def cborAny : JVal → List Nat
  | .vnull => [246]
  | .vbool b => if b then [245] else [244]
  | .vnum n => if n < 0 then cborText (toString n) else cborUInt 0 n.toNat
  | .vstr s => cborText s
  | .vbig _ => [246]
  | .varr xs => cborUInt 4 xs.length ++ cborArr xs
  | .vobj fs =>
      cborUInt 5 (sortFields fs).length ++ cborFields (sortFields fs)
termination_by v => sizeOf v
decreasing_by
  all_goals simp [sortFields_sizeOf]

def cborArr : List JVal → List Nat
  | [] => []
  | v :: vs => cborAny v ++ cborArr vs
termination_by l => sizeOf l
decreasing_by
  all_goals simp
  all_goals omega

def cborFields : List (String × JVal) → List Nat
  | [] => []
  | (k, v) :: fs => cborText k ++ cborAny v ++ cborFields fs
termination_by l => sizeOf l
decreasing_by
  all_goals simp
  all_goals omega

end

mutual

/-- Order-preserving variant of `cborAny` (no sorting anywhere). -/
def cborPlainAny : JVal → List Nat
  | .vnull => [246]
  | .vbool b => if b then [245] else [244]
  | .vnum n => if n < 0 then cborText (toString n) else cborUInt 0 n.toNat
  | .vstr s => cborText s
  | .vbig _ => [246]
  | .varr xs => cborUInt 4 xs.length ++ cborPlainArr xs
  | .vobj fs => cborUInt 5 fs.length ++ cborPlainFields fs

def cborPlainArr : List JVal → List Nat
  | [] => []
  | v :: vs => cborPlainAny v ++ cborPlainArr vs

def cborPlainFields : List (String × JVal) → List Nat
  | [] => []
  | (k, v) :: fs => cborText k ++ cborPlainAny v ++ cborPlainFields fs

end

mutual

/-- `sszLite` from `canonical.ts`: tagged text rendering; `null` is `"n"`,
strings are `"s:"`-tagged, integers `"i:"`-tagged, booleans `"b:0/1"`,
arrays `a[...]` with comma-joined elements, objects `o{...}` with key-sorted
comma-joined `key=value` entries, and a bigint falls through every `typeof`
test to the final `"n"`. -/
def sszLite : JVal → String
  | .vnull => "n"
  | .vstr s => "s:" ++ s
  | .vnum n => "i:" ++ toString n
  | .vbool b => "b:" ++ (if b then "1" else "0")
  | .vbig _ => "n"
  | .varr xs => "a[" ++ joinComma (sszArr xs) ++ "]"
  | .vobj fs => "o\x7b" ++ joinComma (sszFields (sortFields fs)) ++ "\x7d"
termination_by v => sizeOf v
decreasing_by
  all_goals simp [sortFields_sizeOf]

def sszArr : List JVal → List String
  | [] => []
  | v :: vs => sszLite v :: sszArr vs
termination_by l => sizeOf l
decreasing_by
  all_goals simp
  all_goals omega

def sszFields : List (String × JVal) → List String
  | [] => []
  | (k, v) :: fs => (k ++ "=" ++ sszLite v) :: sszFields fs
termination_by l => sizeOf l
decreasing_by
  all_goals simp
  all_goals omega

end

mutual

/-- Order-preserving variant of `sszLite` (no sorting anywhere). -/
def sszPlainLite : JVal → String
  | .vnull => "n"
  | .vstr s => "s:" ++ s
  | .vnum n => "i:" ++ toString n
  | .vbool b => "b:" ++ (if b then "1" else "0")
  | .vbig _ => "n"
  | .varr xs => "a[" ++ joinComma (sszPlainArr xs) ++ "]"
  | .vobj fs => "o\x7b" ++ joinComma (sszPlainFields fs) ++ "\x7d"

def sszPlainArr : List JVal → List String
  | [] => []
  | v :: vs => sszPlainLite v :: sszPlainArr vs

def sszPlainFields : List (String × JVal) → List String
  | [] => []
  | (k, v) :: fs => (k ++ "=" ++ sszPlainLite v) :: sszPlainFields fs

end

theorem insertField_sortFieldsVals (k : String) (v : JVal) :
    ∀ l : List (String × JVal),
      insertField (k, sortVal v) (sortFieldsVals l) =
        sortFieldsVals (insertField (k, v) l)
  | [] => rfl
  | (k2, v2) :: rest => by
      have ih := insertField_sortFieldsVals k v rest
      by_cases h : k ≤ k2
      · simp [insertField, sortFieldsVals, h]
      · simp [insertField, sortFieldsVals, h, ih]

theorem sortFields_sortFieldsVals :
    ∀ l : List (String × JVal),
      sortFields (sortFieldsVals l) = sortFieldsVals (sortFields l)
  | [] => rfl
  | (k, v) :: rest => by
      have ih := sortFields_sortFieldsVals rest
      show insertField (k, sortVal v) (sortFields (sortFieldsVals rest)) =
        sortFieldsVals (insertField (k, v) (sortFields rest))
      rw [ih, insertField_sortFieldsVals]

theorem mem_insertField (p q : String × JVal) :
    ∀ l : List (String × JVal), p ∈ insertField q l → p = q ∨ p ∈ l
  | [] => by simp [insertField]
  | r :: rest => by
      by_cases h : q.1 ≤ r.1
      · simp [insertField, h]
      · intro hp
        simp [insertField, h] at hp
        rcases hp with hp | hp
        · exact Or.inr (by simp [hp])
        · rcases mem_insertField p q rest hp with h2 | h2
          · exact Or.inl h2
          · exact Or.inr (by simp [h2])

theorem mem_sortFields (p : String × JVal) :
    ∀ l : List (String × JVal), p ∈ sortFields l → p ∈ l
  | [] => by simp [sortFields]
  | q :: rest => by
      intro hp
      have hp' : p ∈ insertField q (sortFields rest) := hp
      rcases mem_insertField p q (sortFields rest) hp' with h | h
      · simp [h]
      · exact List.mem_cons_of_mem q (mem_sortFields p rest h)

theorem jval_induction (P : JVal → Prop)
    (h1 : P .vnull) (h2 : ∀ b, P (.vbool b)) (h3 : ∀ n, P (.vnum n))
    (h4 : ∀ s, P (.vstr s)) (h5 : ∀ n, P (.vbig n))
    (h6 : ∀ xs, (∀ x ∈ xs, P x) → P (.varr xs))
    (h7 : ∀ fs, (∀ p ∈ fs, P p.2) → P (.vobj fs)) : ∀ v, P v
  | .vnull => h1
  | .vbool b => h2 b
  | .vnum n => h3 n
  | .vstr s => h4 s
  | .vbig n => h5 n
  | .varr xs => h6 xs (fun x hx => jval_induction P h1 h2 h3 h4 h5 h6 h7 x)
  | .vobj fs => h7 fs (fun p hp => jval_induction P h1 h2 h3 h4 h5 h6 h7 p.2)
termination_by v => sizeOf v
decreasing_by
  · have := List.sizeOf_lt_of_mem hx
    simp
    omega
  · have := List.sizeOf_lt_of_mem hp
    obtain ⟨a, b⟩ := p
    simp at this ⊢
    omega

theorem jcsArr_factor (xs : List JVal)
    (h : ∀ x ∈ xs, jcsVal x = jcsPlainVal (sortVal x)) :
    jcsArr xs = jcsPlainArr (sortArr xs) := by
  induction xs with
  | nil => simp [jcsArr, jcsPlainArr, sortArr]
  | cons v vs ih =>
      have hv := h v (List.mem_cons_self v vs)
      have ih' := ih (fun x hx => h x (List.mem_cons_of_mem v hx))
      simp only [jcsArr, sortArr, jcsPlainArr, hv, ih']

theorem jcsFields_factor (l : List (String × JVal))
    (h : ∀ p ∈ l, jcsVal p.2 = jcsPlainVal (sortVal p.2)) :
    jcsFields l = jcsPlainFields (sortFieldsVals l) := by
  induction l with
  | nil => simp [jcsFields, jcsPlainFields, sortFieldsVals]
  | cons p fs ih =>
      obtain ⟨k, v⟩ := p
      have hv := h (k, v) (List.mem_cons_self (k, v) fs)
      have ih' := ih (fun q hq => h q (List.mem_cons_of_mem (k, v) hq))
      rw [show ((k, v) : String × JVal).2 = v from rfl] at hv
      simp only [jcsFields, sortFieldsVals, jcsPlainFields, hv, ih']

theorem jcs_factor : ∀ v, jcsVal v = jcsPlainVal (sortVal v) := by
  intro v
  induction v using jval_induction with
  | h1 => simp [jcsVal, jcsPlainVal, sortVal]
  | h2 b => simp [jcsVal, jcsPlainVal, sortVal]
  | h3 n => simp [jcsVal, jcsPlainVal, sortVal]
  | h4 s => simp [jcsVal, jcsPlainVal, sortVal]
  | h5 n => simp [jcsVal, jcsPlainVal, sortVal]
  | h6 xs h =>
      simp only [jcsVal, sortVal, jcsPlainVal, jcsArr_factor xs h]
  | h7 fs h =>
      simp only [jcsVal, sortVal, jcsPlainVal, sortFields_sortFieldsVals]
      rw [jcsFields_factor (sortFields fs)
        (fun p hp => h p (mem_sortFields p fs hp))]

theorem sortFieldsVals_length :
    ∀ l : List (String × JVal), (sortFieldsVals l).length = l.length
  | [] => rfl
  | (k, v) :: rest => by
      simp [sortFieldsVals, sortFieldsVals_length rest]

theorem sortArr_length : ∀ xs : List JVal, (sortArr xs).length = xs.length
  | [] => rfl
  | v :: vs => by
      simp [sortArr, sortArr_length vs]

theorem cborArr_factor (xs : List JVal)
    (h : ∀ x ∈ xs, cborAny x = cborPlainAny (sortVal x)) :
    cborArr xs = cborPlainArr (sortArr xs) := by
  induction xs with
  | nil => simp [cborArr, cborPlainArr, sortArr]
  | cons v vs ih =>
      have hv := h v (List.mem_cons_self v vs)
      have ih' := ih (fun x hx => h x (List.mem_cons_of_mem v hx))
      simp only [cborArr, sortArr, cborPlainArr, hv, ih']

theorem cborFields_factor (l : List (String × JVal))
    (h : ∀ p ∈ l, cborAny p.2 = cborPlainAny (sortVal p.2)) :
    cborFields l = cborPlainFields (sortFieldsVals l) := by
  induction l with
  | nil => simp [cborFields, cborPlainFields, sortFieldsVals]
  | cons p fs ih =>
      obtain ⟨k, v⟩ := p
      have hv := h (k, v) (List.mem_cons_self (k, v) fs)
      have ih' := ih (fun q hq => h q (List.mem_cons_of_mem (k, v) hq))
      rw [show ((k, v) : String × JVal).2 = v from rfl] at hv
      simp only [cborFields, sortFieldsVals, cborPlainFields, hv, ih']

theorem cbor_factor : ∀ v, cborAny v = cborPlainAny (sortVal v) := by
  intro v
  induction v using jval_induction with
  | h1 => simp [cborAny, cborPlainAny, sortVal]
  | h2 b => simp [cborAny, cborPlainAny, sortVal]
  | h3 n => simp [cborAny, cborPlainAny, sortVal]
  | h4 s => simp [cborAny, cborPlainAny, sortVal]
  | h5 n => simp [cborAny, cborPlainAny, sortVal]
  | h6 xs h =>
      simp only [cborAny, sortVal, cborPlainAny, cborArr_factor xs h,
        sortArr_length]
  | h7 fs h =>
      simp only [cborAny, sortVal, cborPlainAny, sortFields_sortFieldsVals]
      rw [cborFields_factor (sortFields fs)
        (fun p hp => h p (mem_sortFields p fs hp))]
      rw [sortFieldsVals_length]

theorem sszArr_factor (xs : List JVal)
    (h : ∀ x ∈ xs, sszLite x = sszPlainLite (sortVal x)) :
    sszArr xs = sszPlainArr (sortArr xs) := by
  induction xs with
  | nil => simp [sszArr, sszPlainArr, sortArr]
  | cons v vs ih =>
      have hv := h v (List.mem_cons_self v vs)
      have ih' := ih (fun x hx => h x (List.mem_cons_of_mem v hx))
      simp only [sszArr, sortArr, sszPlainArr, hv, ih']

theorem sszFields_factor (l : List (String × JVal))
    (h : ∀ p ∈ l, sszLite p.2 = sszPlainLite (sortVal p.2)) :
    sszFields l = sszPlainFields (sortFieldsVals l) := by
  induction l with
  | nil => simp [sszFields, sszPlainFields, sortFieldsVals]
  | cons p fs ih =>
      obtain ⟨k, v⟩ := p
      have hv := h (k, v) (List.mem_cons_self (k, v) fs)
      have ih' := ih (fun q hq => h q (List.mem_cons_of_mem (k, v) hq))
      rw [show ((k, v) : String × JVal).2 = v from rfl] at hv
      simp only [sszFields, sortFieldsVals, sszPlainFields, hv, ih']

theorem ssz_factor : ∀ v, sszLite v = sszPlainLite (sortVal v) := by
  intro v
  induction v using jval_induction with
  | h1 => simp [sszLite, sszPlainLite, sortVal]
  | h2 b => simp [sszLite, sszPlainLite, sortVal]
  | h3 n => simp [sszLite, sszPlainLite, sortVal]
  | h4 s => simp [sszLite, sszPlainLite, sortVal]
  | h5 n => simp [sszLite, sszPlainLite, sortVal]
  | h6 xs h =>
      simp only [sszLite, sortVal, sszPlainLite, sszArr_factor xs h]
  | h7 fs h =>
      simp only [sszLite, sortVal, sszPlainLite, sortFields_sortFieldsVals]
      rw [sszFields_factor (sortFields fs)
        (fun p hp => h p (mem_sortFields p fs hp))]

end Canonical

/-- C5: two values that are logically equal and differ only in the insertion
order of object keys — i.e. whose key-sort normal forms `sortVal` coincide —
serialize to byte-identical output under each of the three algorithms: the
JCS text (including the case where both throw on a bigint, embedded as
`none`), the CBOR byte list, and the SSZ-lite text. -/
theorem claim_c5_key_order_invariance (v w : Canonical.JVal)
    (h : Canonical.sortVal v = Canonical.sortVal w) :
    Canonical.jcsVal v = Canonical.jcsVal w ∧
      Canonical.cborAny v = Canonical.cborAny w ∧
      Canonical.sszLite v = Canonical.sszLite w := by
  refine ⟨?_, ?_, ?_⟩
  · rw [Canonical.jcs_factor v, Canonical.jcs_factor w, h]
  · rw [Canonical.cbor_factor v, Canonical.cbor_factor w, h]
  · rw [Canonical.ssz_factor v, Canonical.ssz_factor w, h]

/-- Witness for C5: the two-field object written with its keys in the two
possible insertion orders, with a nested object inside whose keys are also
swapped. -/
theorem claim_c5_key_order_invariance_witness :
    Canonical.jcsVal
        (Canonical.JVal.vobj
          [("b", Canonical.JVal.vnum 1),
           ("a", Canonical.JVal.vobj
             [("y", Canonical.JVal.vnull), ("x", Canonical.JVal.vbool true)])]) =
      Canonical.jcsVal
        (Canonical.JVal.vobj
          [("a", Canonical.JVal.vobj
             [("x", Canonical.JVal.vbool true), ("y", Canonical.JVal.vnull)]),
           ("b", Canonical.JVal.vnum 1)]) ∧
    Canonical.cborAny
        (Canonical.JVal.vobj
          [("b", Canonical.JVal.vnum 1),
           ("a", Canonical.JVal.vobj
             [("y", Canonical.JVal.vnull), ("x", Canonical.JVal.vbool true)])]) =
      Canonical.cborAny
        (Canonical.JVal.vobj
          [("a", Canonical.JVal.vobj
             [("x", Canonical.JVal.vbool true), ("y", Canonical.JVal.vnull)]),
           ("b", Canonical.JVal.vnum 1)]) ∧
    Canonical.sszLite
        (Canonical.JVal.vobj
          [("b", Canonical.JVal.vnum 1),
           ("a", Canonical.JVal.vobj
             [("y", Canonical.JVal.vnull), ("x", Canonical.JVal.vbool true)])]) =
      Canonical.sszLite
        (Canonical.JVal.vobj
          [("a", Canonical.JVal.vobj
             [("x", Canonical.JVal.vbool true), ("y", Canonical.JVal.vnull)]),
           ("b", Canonical.JVal.vnum 1)]) :=
  claim_c5_key_order_invariance _ _ (by
    simp +decide [Canonical.sortVal, Canonical.sortArr,
      Canonical.sortFieldsVals, Canonical.sortFields, Canonical.insertField])

/-- C6: the claim says an ordinary number and its bigint equivalent of the
same magnitude serialize to identical canonical bytes under the same
algorithm.  The code disagrees for every algorithm: at magnitude 5 the CBOR
encoder emits the unsigned-integer byte `0x05` for the number but the
`typeof`-switch `default` null byte `0xf6` for the bigint, SSZ-lite emits
`"i:5"` for the number but the fall-through `"n"` for the bigint, and
`JSON.stringify` emits `"5"` for the number while throwing a `TypeError`
(`none`) on the bigint. -/
theorem claim_c6_bigint_encoded_as_null :
    Canonical.jcsVal (Canonical.JVal.vnum 5) = some "5" ∧
    Canonical.jcsVal (Canonical.JVal.vbig 5) = none ∧
    Canonical.cborAny (Canonical.JVal.vnum 5) = [5] ∧
    Canonical.cborAny (Canonical.JVal.vbig 5) = [246] ∧
    Canonical.sszLite (Canonical.JVal.vnum 5) = "i:5" ∧
    Canonical.sszLite (Canonical.JVal.vbig 5) = "n" ∧
    Canonical.cborAny (Canonical.JVal.vnum 5) ≠
      Canonical.cborAny (Canonical.JVal.vbig 5) ∧
    Canonical.sszLite (Canonical.JVal.vnum 5) ≠
      Canonical.sszLite (Canonical.JVal.vbig 5) := by
  refine ⟨?_, ?_, ?_, ?_, ?_, ?_, ?_, ?_⟩ <;>
    simp +decide [Canonical.jcsVal, Canonical.cborAny, Canonical.sszLite,
      Canonical.cborUInt]

namespace Queue

/-- One queue wire item `{eventId, file, line}` (`AppendItem` in
`append-queue.ts`). -/
structure AppendItem where
  eventId : String
  file : String
  line : String
deriving DecidableEq, Repr

/-- `IdLRU.add` from `append-queue.ts`: the cache is a JavaScript `Map` in
insertion order (oldest first).  `map.set` on a key already present keeps its
position and the size, otherwise the id is appended; when the size then
exceeds `max`, the oldest entry (`keys().next().value`) is deleted. -/
def lruAdd (max : Nat) (lru : List String) (id : String) : List String :=
  let lru1 := if id ∈ lru then lru else lru ++ [id]
  if max < lru1.length then lru1.tail else lru1

/-- The queue-coordination state: the shared FIFO (`rpush`/`blpop`), the
idempotency cache, and the ledger lines appended so far as `(file, line)`
pairs in append order. -/
structure QState where
  queue : List AppendItem
  lru : List String
  persisted : List (String × String)
deriving DecidableEq, Repr

/-- `AppendQueue.enqueue` in coordination-store mode: `rpush` the payload
onto the shared FIFO. -/
def enqueue (s : QState) (it : AppendItem) : QState :=
  { s with queue := s.queue ++ [it] }

/-- One leader iteration of `startDrainLoop`: `blpop` pops the queue head;
if its `eventId` is already in the cache the item is discarded, otherwise
the line is appended to its file and the `eventId` recorded. -/
def drainOne (max : Nat) (s : QState) : QState :=
  match s.queue with
  | [] => s
  | item :: rest =>
      if item.eventId ∈ s.lru then { s with queue := rest }
      else
        { queue := rest
          lru := lruAdd max s.lru item.eventId
          persisted := s.persisted ++ [(item.file, item.line)] }

theorem mem_lruAdd_self (max : Nat) (lru : List String) (id : String)
    (hfresh : id ∉ lru) (hmax : 1 ≤ max) : id ∈ lruAdd max lru id := by
  unfold lruAdd
  simp only [if_neg hfresh]
  by_cases hev : max < (lru ++ [id]).length
  · rw [if_pos hev]
    cases lru with
    | nil =>
        simp at hev
        omega
    | cons a rest => simp
  · rw [if_neg hev]
    simp

end Queue

/-- C7: enqueuing two items carrying the same `eventId` and draining both as
leader persists exactly one ledger line: the first drain appends the line
and records the `eventId`, the second finds the `eventId` in the idempotency
cache and discards the item.  Hypotheses: the `eventId` is not already
cached, the cache capacity is at least one (the code's default is 50000),
and the queue starts empty. -/
theorem claim_c7_duplicate_enqueue_single_line (max : Nat) (s : Queue.QState)
    (e f l1 l2 : String) (hfresh : e ∉ s.lru) (hmax : 1 ≤ max)
    (hq : s.queue = []) :
    (Queue.drainOne max (Queue.drainOne max
        (Queue.enqueue (Queue.enqueue s ⟨e, f, l1⟩) ⟨e, f, l2⟩))).persisted =
      s.persisted ++ [(f, l1)] := by
  obtain ⟨q, lru, pers⟩ := s
  simp only at hq hfresh
  subst hq
  simp [Queue.enqueue, Queue.drainOne, hfresh,
    Queue.mem_lruAdd_self max lru e hfresh hmax]

/-- Witness for C7: a concrete duplicate pair drained against an empty
store. -/
theorem claim_c7_duplicate_enqueue_single_line_witness :
    (Queue.drainOne 3 (Queue.drainOne 3
        (Queue.enqueue (Queue.enqueue ⟨[], [], []⟩ ⟨"ev1", "f", "a"⟩)
          ⟨"ev1", "f", "b"⟩))).persisted =
      ([] : List (String × String)) ++ [("f", "a")] :=
  claim_c7_duplicate_enqueue_single_line 3 ⟨[], [], []⟩ "ev1" "f" "a" "b"
    (by decide) (by decide) rfl

namespace Nonce

/-- `mem.get(key)` on the JavaScript `Map` behind the in-memory fallback:
association-list lookup (keys are unique, in insertion order, oldest
first). -/
def getKey (mem : List (String × Nat)) (key : String) : Option Nat :=
  match mem with
  | [] => none
  | (k, e) :: rest => if k = key then some e else getKey rest key

/-- `mem.set(key, val)`: update in place when the key exists (JavaScript
`Map.set` keeps the original position), otherwise append. -/
def setKey (mem : List (String × Nat)) (key : String) (val : Nat) :
    List (String × Nat) :=
  match mem with
  | [] => [(key, val)]
  | (k, e) :: rest =>
      if k = key then (k, val) :: rest else (k, e) :: setKey rest key val

/-- `checkAndSetNonce` (`api/src/util/nonceStore.ts`), in-memory fallback
path: reject when the key is present with an expiry still in the future
(`mem.has(key) && mem.get(key)! > now`); otherwise, when the map has reached
`MEM_MAX`, delete the oldest key, then store `now + ttlSec * 1000` under the
key and admit.  The `setTimeout` deletion fires only at expiry, which the
stored expiry already accounts for, so it is not modelled as a separate
step. -/
def checkAndSetNonce (memMax : Nat) (key : String) (ttlSec now : Nat)
    (mem : List (String × Nat)) : Bool × List (String × Nat) :=
  match getKey mem key with
  | some exp =>
      if now < exp then (false, mem)
      else
        let mem1 := if memMax ≤ mem.length then mem.tail else mem
        (true, setKey mem1 key (now + ttlSec * 1000))
  | none =>
      let mem1 := if memMax ≤ mem.length then mem.tail else mem
      (true, setKey mem1 key (now + ttlSec * 1000))

/-- Run a sequence of calls `(key, now)` through the store, keeping only the
final map. -/
def runNonce (memMax ttlSec : Nat) :
    List (String × Nat) → List (String × Nat) → List (String × Nat)
  | [], mem => mem
  | (k, t) :: rest, mem =>
      runNonce memMax ttlSec rest (checkAndSetNonce memMax k ttlSec t mem).2

theorem getKey_setKey_self (key : String) (val : Nat) :
    ∀ mem : List (String × Nat), getKey (setKey mem key val) key = some val
  | [] => by simp [setKey, getKey]
  | (k, e) :: rest => by
      by_cases h : k = key
      · simp [setKey, getKey, h]
      · simp [setKey, getKey, h, getKey_setKey_self key val rest]

theorem getKey_setKey_ne (key key2 : String) (val : Nat) (hne : key2 ≠ key) :
    ∀ mem : List (String × Nat),
      getKey (setKey mem key2 val) key = getKey mem key
  | [] => by simp [setKey, getKey, hne]
  | (k, e) :: rest => by
      by_cases h : k = key2
      · subst h
        simp [setKey, getKey, hne]
      · simp [setKey, getKey, h, getKey_setKey_ne key key2 val hne rest]

theorem setKey_length (key : String) (val : Nat) :
    ∀ mem : List (String × Nat),
      (setKey mem key val).length ≤ mem.length + 1
  | [] => by simp [setKey]
  | (k, e) :: rest => by
      by_cases h : k = key
      · simp [setKey, h]
      · have := setKey_length key val rest
        simp [setKey, h]
        omega

theorem runNonce_preserves (memMax ttlSec : Nat) (key : String) (exp : Nat) :
    ∀ (others : List (String × Nat)) (mem : List (String × Nat)),
      getKey mem key = some exp →
      mem.length + others.length < memMax →
      (∀ p ∈ others, p.1 ≠ key) →
      getKey (runNonce memMax ttlSec others mem) key = some exp
  | [], mem, hget, _, _ => hget
  | (k', t') :: rest, mem, hget, hlen, hne => by
      have hk' : k' ≠ key := hne (k', t') (List.mem_cons_self _ _)
      have hne' : ∀ p ∈ rest, p.1 ≠ key :=
        fun p hp => hne p (List.mem_cons_of_mem _ hp)
      have hnoev : ¬ memMax ≤ mem.length := by
        simp at hlen ⊢
        omega
      rw [runNonce]
      rcases hgk : getKey mem k' with _ | exp'
      · have hstep :
            (checkAndSetNonce memMax k' ttlSec t' mem).2 =
              setKey mem k' (t' + ttlSec * 1000) := by
          simp [checkAndSetNonce, hgk, hnoev]
        rw [hstep]
        apply runNonce_preserves memMax ttlSec key exp rest
        · rw [getKey_setKey_ne key k' _ hk']
          exact hget
        · have := setKey_length k' (t' + ttlSec * 1000) mem
          simp at hlen
          omega
        · exact hne'
      · by_cases hrep : t' < exp'
        · have hstep : (checkAndSetNonce memMax k' ttlSec t' mem).2 = mem := by
            simp [checkAndSetNonce, hgk, hrep]
          rw [hstep]
          apply runNonce_preserves memMax ttlSec key exp rest mem hget _ hne'
          simp at hlen
          omega
        · have hstep :
              (checkAndSetNonce memMax k' ttlSec t' mem).2 =
                setKey mem k' (t' + ttlSec * 1000) := by
            simp [checkAndSetNonce, hgk, hrep, hnoev]
          rw [hstep]
          apply runNonce_preserves memMax ttlSec key exp rest
          · rw [getKey_setKey_ne key k' _ hk']
            exact hget
          · have := setKey_length k' (t' + ttlSec * 1000) mem
            simp at hlen
            omega
          · exact hne'

end Nonce

/-- C8 counterexample: the claim says every repeat of a key within the TTL
window returns `false` in the bounded-map fallback mode, but capacity
eviction (the oldest key is deleted whenever the map is full, `MEM_MAX`
being configurable through `NONCE_MEM_MAX`) can forget the key inside its
TTL window.  With capacity 1: `k1` is admitted at time 0 (expiry 600000),
admitting `k2` at time 1 evicts `k1`, and the repeat of `k1` at time 2 —
well inside its TTL window, `2 < 600000` — is admitted again (`true`),
contradicting the claim. -/
theorem claim_c8_counterexample :
    (Nonce.checkAndSetNonce 1 "k1" 600 0 []).1 = true ∧
    (Nonce.checkAndSetNonce 1 "k2" 600 1
        (Nonce.checkAndSetNonce 1 "k1" 600 0 []).2).1 = true ∧
    (Nonce.checkAndSetNonce 1 "k1" 600 2
        (Nonce.checkAndSetNonce 1 "k2" 600 1
          (Nonce.checkAndSetNonce 1 "k1" 600 0 []).2).2).1 = true ∧
    (2 : Nat) < 0 + 600 * 1000 := by
  decide

/-- C8 amended: `checkAndSetNonce` returns `true` on the first call for an
absent key, and returns `false` on a repeat of the same key within the TTL
window provided the key's entry is not evicted in between — guaranteed here
by the map staying strictly below capacity throughout the interleaved calls
(`others`), none of which uses the same key. -/
theorem claim_c8_first_true_repeat_false (memMax ttlSec : Nat) (key : String)
    (t0 t1 : Nat) (mem0 others : List (String × Nat))
    (hfresh : Nonce.getKey mem0 key = none)
    (hcap : mem0.length + 1 + others.length < memMax)
    (hothers : ∀ p ∈ others, p.1 ≠ key)
    (hwin : t1 < t0 + ttlSec * 1000) :
    (Nonce.checkAndSetNonce memMax key ttlSec t0 mem0).1 = true ∧
    (Nonce.checkAndSetNonce memMax key ttlSec t1
        (Nonce.runNonce memMax ttlSec others
          (Nonce.checkAndSetNonce memMax key ttlSec t0 mem0).2)).1 = false := by
  have hnoev : ¬ memMax ≤ mem0.length := by omega
  have hfst : (Nonce.checkAndSetNonce memMax key ttlSec t0 mem0).1 = true := by
    simp [Nonce.checkAndSetNonce, hfresh, hnoev]
  refine ⟨hfst, ?_⟩
  have hsnd :
      (Nonce.checkAndSetNonce memMax key ttlSec t0 mem0).2 =
        Nonce.setKey mem0 key (t0 + ttlSec * 1000) := by
    simp [Nonce.checkAndSetNonce, hfresh, hnoev]
  rw [hsnd]
  have hget0 :
      Nonce.getKey (Nonce.setKey mem0 key (t0 + ttlSec * 1000)) key =
        some (t0 + ttlSec * 1000) :=
    Nonce.getKey_setKey_self key (t0 + ttlSec * 1000) mem0
  have hlen0 :
      (Nonce.setKey mem0 key (t0 + ttlSec * 1000)).length + others.length <
        memMax := by
    have := Nonce.setKey_length key (t0 + ttlSec * 1000) mem0
    omega
  have hpres :=
    Nonce.runNonce_preserves memMax ttlSec key (t0 + ttlSec * 1000) others
      (Nonce.setKey mem0 key (t0 + ttlSec * 1000)) hget0 hlen0 hothers
  simp [Nonce.checkAndSetNonce, hpres, hwin]

/-- Witness for C8 amended: fresh key `k1` at time 0, one interleaved call
for `k2`, repeat of `k1` at time 5 against capacity 10. -/
theorem claim_c8_first_true_repeat_false_witness :
    (Nonce.checkAndSetNonce 10 "k1" 600 0 []).1 = true ∧
    (Nonce.checkAndSetNonce 10 "k1" 600 5
        (Nonce.runNonce 10 600 [("k2", 1)]
          (Nonce.checkAndSetNonce 10 "k1" 600 0 []).2)).1 = false :=
  claim_c8_first_true_repeat_false 10 600 "k1" 0 5 [] [("k2", 1)]
    (by decide) (by decide) (by decide) (by decide)

namespace SizeStore

/-- The directory contents as an association from file path to byte size;
`fsSize` embeds the `fs.existsSync(f) ? fs.statSync(f).size : 0` read in
`openWriter`, `fsAppend` a write of `len` bytes appended to the file. -/
def fsSize (fs : List (String × Nat)) (p : String) : Nat :=
  match fs with
  | [] => 0
  | (q, sz) :: rest => if q = p then sz else fsSize rest p

/-- `WriterState` of the byte-ceiling `ProofStore`: the open stream's day
key and running byte count. -/
structure Writer where
  bytes : Nat
  dayKey : Nat
deriving DecidableEq, Repr

/-- The store: configured ceiling `maxBytes`, the open writer if any, and
the directory contents. -/
structure Store where
  maxBytes : Nat
  writer : Option Writer
  fs : List (String × Nat)
deriving DecidableEq, Repr

/-- `currentNdjsonPath`: the partition path depends only on the day key
(`proofs-${dayKey}.ndjson`) — there is no sequence number. -/
def currentNdjsonPath (dayKey : Nat) : String :=
  "proofs-" ++ toString dayKey ++ ".ndjson"

/-- `openWriter`: open the day-keyed path in append mode; the byte count
starts from the existing file size. -/
def openWriter (s : Store) (dayKey : Nat) : Store :=
  { s with
    writer := some
      { bytes := fsSize s.fs (currentNdjsonPath dayKey), dayKey := dayKey } }

/-- `rotateIfNeeded(ts)`: open a writer when none exists; otherwise close
and reopen when the day changed or the byte count has reached the ceiling
(`this.writer.bytes >= this.maxBytes`).  Closing the stream has no effect on
the modelled state, so rotation is a reopen. -/
def rotateIfNeeded (s : Store) (dk : Nat) : Store :=
  match s.writer with
  | none => openWriter s dk
  | some w =>
      if w.dayKey ≠ dk ∨ s.maxBytes ≤ w.bytes then openWriter s dk else s

end SizeStore

